import Mathlib

/-!
Verification of the tree-building traversal and the commit-window extraction
of the repository-analytics tool.

The embedding follows the source:
  - `src/src/file_structure.py`, class `FileStructureAnalyzer`
    (`should_exclude`, `build_tree`, `get_file_structure`, `get_formated_tree`
    with its inner `format_tree`), and
  - `src/src/repo_stats.py` (`parse_byte_message`, `RepoStats.get_commit_history`
    and the `CommitEntry` record).

The file system that the Python code walks is modelled by the inductive type
`FS`: a path is either a plain file or a directory with a list of immediate
children; a directory carries a `readable` flag that is `false` when listing
its children raises `PermissionError` (the one listing failure mode the source
handles, and the one named by the spec for the directory-listing collaborator).
Path strings are threaded explicitly: the Python code applies the exclusion
patterns to `str(path)`, and for a child of `path` that string is
`str(path) ++ "/" ++ child.name`.

Compiled regular expressions are modelled as their induced match functions
`String → Bool`: `re.compile(p).search(s)` is an opaque external call, and
`should_exclude` only ever consumes its boolean outcome.

Python `sorted(path.iterdir())` compares `Path` values, which for siblings of
one parent is exactly code-point comparison of the child names.  The sort is
modelled by a stable insertion sort keyed on the name (`sortLe` below):
`timsort` and insertion sort are both stable, hence produce identical output
for the same key function.  Because the recursive result of a child depends on
nothing but that child, the model computes the child pairs first and stable
sorts the pairs by name, which yields the same list of pairs as sorting the
children first the way the source writes it.
-/

/-- Model of a file-system subtree: a plain file, or a directory whose
`readable` flag is `false` exactly when listing its children raises
`PermissionError`. -/
inductive FS where
  | file (name : String)
  | dir (name : String) (readable : Bool) (children : List FS)

/-- Base name of a node, as `path.name` returns it. -/
def FS.name : FS → String
  | .file n => n
  | .dir n _ _ => n

/-- Model of the `TreeObject` union `str | dict[str, TreeObject]` of
`file_structure.py`: dictionary keys stay in insertion order. -/
inductive TreeObject where
  | str (s : String)
  | dict (entries : List (String × TreeObject))

/-- END_SIGNAL of `FileStructureAnalyzer` (`file_structure.py` line 13): the
truncation marker. -/
def END_SIGNAL : String := "..."

/-- EXCLUDE_SIGNAL of `FileStructureAnalyzer` (`file_structure.py` line 14):
the exclusion sentinel. -/
def EXCLUDE_SIGNAL : String := ""

/-- Code-point comparison of character lists, the order Python uses on `str`. -/
def strLeChars : List Char → List Char → Bool
  | [], _ => true
  | _ :: _, [] => false
  | c :: cs, d :: ds =>
    if c.toNat < d.toNat then true
    else if d.toNat < c.toNat then false
    else strLeChars cs ds

/-- Lexicographic code-point order on strings. -/
def strLe (a b : String) : Bool := strLeChars a.data b.data

/-- Insert an element into a sorted list, before the first strictly larger
element; equal keys keep the earlier element in front, as a stable sort does. -/
def insertLe {α : Type} (le : α → α → Bool) (a : α) : List α → List α
  | [] => [a]
  | b :: l => if le a b then a :: b :: l else b :: insertLe le a l

/-- Stable insertion sort; models Python `sorted` (timsort), which is stable
and therefore produces the identical list for the same key comparisons. -/
def sortLe {α : Type} (le : α → α → Bool) : List α → List α
  | [] => []
  | a :: l => insertLe le a (sortLe le l)

/-- Assignment `result[key] = value` on a Python dict kept as an ordered
association list: an existing key is updated in place, a fresh key is appended
at the end. -/
def insertEntry : List (String × TreeObject) → String → TreeObject → List (String × TreeObject)
  | [], k, v => [(k, v)]
  | (k0, v0) :: es, k, v => if k0 = k then (k0, v) :: es else (k0, v0) :: insertEntry es k v

/-- Comparison `child_result != self.EXCLUDE_SIGNAL` of `build_tree`
(`file_structure.py` line 80), negated: a Python dict never equals a string,
so only the string value `""` matches the sentinel. -/
def is_exclude_signal : TreeObject → Bool
  | .str s => s == EXCLUDE_SIGNAL
  | .dict _ => false

/-- FileStructureAnalyzer.should_exclude (`file_structure.py` lines 37 to 50):
true when any compiled pattern finds a match in the path string.  A compiled
pattern is modelled by its match function. -/
def should_exclude (pats : List (String → Bool)) (path_str : String) : Bool :=
  pats.any (fun p => p path_str)

/-- Condition `self.max_depth is not None and current_depth > self.max_depth`
of `build_tree` (`file_structure.py` line 66). -/
def depth_exceeded (max_depth : Option Nat) (current_depth : Nat) : Bool :=
  match max_depth with
  | none => false
  | some m => decide (m < current_depth)

mutual
/-- FileStructureAnalyzer.build_tree (`file_structure.py` lines 52 to 85).
The checks appear in source order: depth first, then exclusion, then the
file case, then the directory loop; an unreadable directory returns the
string `"Permission denied"`.  `path_str` is `str(path)` for the node. -/
def build_tree (max_depth : Option Nat) (pats : List (String → Bool)) (path_str : String) :
    FS → Nat → TreeObject
  | fs, current_depth =>
    if depth_exceeded max_depth current_depth then .str END_SIGNAL
    else if should_exclude pats path_str then .str EXCLUDE_SIGNAL
    else match fs with
      | .file n => .str n
      | .dir _ false _ => .str "Permission denied"
      | .dir _ true cs =>
        let pairs := sortLe (fun a b => strLe a.1 b.1) (child_pairs max_depth pats path_str cs current_depth)
        .dict (pairs.foldl
          (fun acc kv => if is_exclude_signal kv.2 then acc else insertEntry acc kv.1 kv.2) [])
termination_by structural fs => fs

/-- Recursive results of the children of a directory, paired with the child
names, in the listed order; `build_tree` stable sorts these pairs by name,
which equals sorting the children first as the source does. -/
def child_pairs (max_depth : Option Nat) (pats : List (String → Bool)) (path_str : String) :
    List FS → Nat → List (String × TreeObject)
  | [], _ => []
  | c :: cs, current_depth =>
    (c.name, build_tree max_depth pats (path_str ++ "/" ++ c.name) c (current_depth + 1))
      :: child_pairs max_depth pats path_str cs current_depth
termination_by structural cs => cs
end

/-- FileStructureAnalyzer.get_file_structure (`file_structure.py` lines 87 to
95): the singleton mapping from the directory base name to the built tree.
`root_path` is `str(self.directory)` and `fs.name` plays `self.directory.name`. -/
def get_file_structure (max_depth : Option Nat) (pats : List (String → Bool))
    (root_path : String) (fs : FS) : List (String × TreeObject) :=
  [(fs.name, build_tree max_depth pats root_path fs 0)]

mutual
/-- Inner format_tree of FileStructureAnalyzer.get_formated_tree
(`file_structure.py` lines 98 to 112): one block of output lines per entry in
entry order, where the last entry of a level gets the closing branch prefix. -/
def format_tree : List (String × TreeObject) → String → List String
  | [], _ => []
  | (key, value) :: rest, indent =>
    entry_block indent rest.isEmpty key value ++ format_tree rest indent
termination_by structural es => es

/-- Lines contributed by one entry of `format_tree` (the body of the loop at
`file_structure.py` lines 100 to 111): dict values recurse with a deeper
indent, the END_SIGNAL value renders as `key/ ...`, and any other string
value is printed itself. -/
def entry_block (indent : String) (is_last : Bool) (key : String) : TreeObject → List String
  | .dict es =>
    (indent ++ (if is_last then "└── " else "├── ") ++ key ++ "/")
      :: format_tree es (indent ++ (if is_last then "    " else "│   "))
  | .str s =>
    if s == END_SIGNAL then [indent ++ (if is_last then "└── " else "├── ") ++ key ++ "/ ..."]
    else [indent ++ (if is_last then "└── " else "├── ") ++ s]
termination_by structural value => value
end

/-- Per-entry blocks of a rendering, in entry order. -/
def entry_blocks : List (String × TreeObject) → String → List (List String)
  | [], _ => []
  | (key, value) :: rest, indent =>
    entry_block indent rest.isEmpty key value :: entry_blocks rest indent

/-- Raw serializable (JSON) form of a tree, as `json.dumps` writes it and a
reader parses it back: strings and objects whose keys keep insertion order.
The JSON text layer is injective on this fragment, so the round trip through
the text is the identity on `Raw`. -/
inductive Raw where
  | rstr (s : String)
  | robj (entries : List (String × Raw))

mutual
/-- Serialization of a tree node into its raw JSON form. -/
def toRaw : TreeObject → Raw
  | .str s => .rstr s
  | .dict es => .robj (toRawEntries es)
termination_by structural t => t

/-- Serialization of the entries of a dict node. -/
def toRawEntries : List (String × TreeObject) → List (String × Raw)
  | [] => []
  | (k, v) :: es => (k, toRaw v) :: toRawEntries es
termination_by structural es => es
end

mutual
/-- Deserialization of a raw JSON value back into a tree node. -/
def ofRaw : Raw → TreeObject
  | .rstr s => .str s
  | .robj es => .dict (ofRawEntries es)
termination_by structural r => r

/-- Deserialization of the entries of a JSON object. -/
def ofRawEntries : List (String × Raw) → List (String × TreeObject)
  | [] => []
  | (k, v) :: es => (k, ofRaw v) :: ofRawEntries es
termination_by structural es => es
end

/-- FileStructureAnalyzer.get_formated_tree (`file_structure.py` lines 97 to
118): the tree, its raw serializable form, and the rendered outline lines. -/
def get_formated_tree (max_depth : Option Nat) (pats : List (String → Bool))
    (root_path : String) (fs : FS) :
    List (String × TreeObject) × List (String × Raw) × List String :=
  let tree := get_file_structure max_depth pats root_path fs
  (tree, toRawEntries tree, format_tree tree "")

/-- Continuation-byte test for strict UTF-8 decoding: `0x80` to `0xBF`. -/
def isCont (b : Nat) : Bool := 0x80 ≤ b && b < 0xC0

/-- Strict UTF-8 decoding of a byte sequence, as `bytes.decode("utf-8")`
performs it: rejects stray continuation bytes, overlong encodings, surrogate
code points and lead bytes above `0xF4`; `none` models `UnicodeDecodeError`. -/
def utf8Decode : List Nat → Option (List Char)
  | [] => some []
  | b :: bs =>
    if b < 0x80 then
      match utf8Decode bs with
      | some cs => some (Char.ofNat b :: cs)
      | none => none
    else if b < 0xC2 then none
    else if b < 0xE0 then
      match bs with
      | b1 :: bs1 =>
        if isCont b1 then
          match utf8Decode bs1 with
          | some cs => some (Char.ofNat ((b - 0xC0) * 64 + (b1 - 0x80)) :: cs)
          | none => none
        else none
      | [] => none
    else if b < 0xF0 then
      match bs with
      | b1 :: b2 :: bs2 =>
        if (if b = 0xE0 then 0xA0 ≤ b1 && b1 < 0xC0
            else if b = 0xED then 0x80 ≤ b1 && b1 < 0xA0
            else isCont b1) && isCont b2 then
          match utf8Decode bs2 with
          | some cs =>
            some (Char.ofNat ((b - 0xE0) * 4096 + (b1 - 0x80) * 64 + (b2 - 0x80)) :: cs)
          | none => none
        else none
      | _ => none
    else if b < 0xF5 then
      match bs with
      | b1 :: b2 :: b3 :: bs3 =>
        if (if b = 0xF0 then 0x90 ≤ b1 && b1 < 0xC0
            else if b = 0xF4 then 0x80 ≤ b1 && b1 < 0x90
            else isCont b1) && isCont b2 && isCont b3 then
          match utf8Decode bs3 with
          | some cs =>
            some (Char.ofNat
              ((b - 0xF0) * 262144 + (b1 - 0x80) * 4096 + (b2 - 0x80) * 64 + (b3 - 0x80)) :: cs)
          | none => none
        else none
      | _ => none
    else none

/-- Argument of parse_byte_message: `str | bytes | None` in the source; a
bytes value is a list of byte values. -/
inductive PyMessage where
  | none
  | ofString (s : String)
  | ofBytes (bs : List Nat)
deriving DecidableEq

/-- parse_byte_message (`repo_stats.py` lines 67 to 75): `None` becomes `""`,
bytes are decoded as UTF-8 with a decoding failure degrading to `""`, and a
string passes through. -/
def parse_byte_message : PyMessage → String
  | .none => ""
  | .ofBytes bs =>
    match utf8Decode bs with
    | some cs => String.mk cs
    | Option.none => ""
  | .ofString s => s

/-- Data of one commit as the external version-control layer delivers it:
a timezone-aware timestamp (as an integer instant on the chronological line),
possibly absent or empty author fields, a message, and the files touched
(`commit.stats.files` keys). -/
structure Commit where
  committed_datetime : Int
  author_email : Option String
  author_name : Option String
  message : PyMessage
  stats_files : List String
deriving DecidableEq

/-- CommitEntry record of `repo_stats.py` lines 39 to 45. -/
structure CommitEntry where
  date : Int
  author_email : String
  author_name : String
  message : String
  files_changed : Nat
deriving DecidableEq

/-- Python `x or "Unknown"` on an optional string: `None` and the empty
string are falsy. -/
def orUnknown : Option String → String
  | Option.none => "Unknown"
  | some s => if s = "" then "Unknown" else s

/-- Construction of the CommitEntry inside the loop of get_commit_history
(`repo_stats.py` lines 134 to 142). -/
def mkCommitEntry (c : Commit) : CommitEntry :=
  { date := c.committed_datetime
    author_email := orUnknown c.author_email
    author_name := orUnknown c.author_name
    message := parse_byte_message c.message
    files_changed := c.stats_files.length }

/-- RepoStats.get_commit_history (`repo_stats.py` lines 125 to 143): walk the
commits in delivered (newest-first) order; break as soon as a commit satisfies
`committed_datetime < start_date and committed_datetime > end_date`, else emit
an entry and continue. -/
def get_commit_history : List Commit → Int → Int → List CommitEntry
  | [], _, _ => []
  | c :: rest, start_date, end_date =>
    if c.committed_datetime < start_date ∧ c.committed_datetime > end_date then []
    else mkCommitEntry c :: get_commit_history rest start_date end_date

/-- The stop test of the loop of get_commit_history, as a predicate on one
commit. -/
def stop_cond (start_date end_date : Int) (c : Commit) : Bool :=
  decide (c.committed_datetime < start_date ∧ c.committed_datetime > end_date)

mutual
/-- Every node of a tree: the node itself and, below a dict node, every node
of every stored value. -/
def nodes : TreeObject → List TreeObject
  | .str s => [.str s]
  | .dict es => .dict es :: nodesEntries es
termination_by structural t => t

/-- Nodes of all values of an entry list. -/
def nodesEntries : List (String × TreeObject) → List TreeObject
  | [] => []
  | (_, v) :: es => nodes v ++ nodesEntries es
termination_by structural es => es
end

mutual
/-- Every stored value of a tree, indexed by the list of dict keys leading to
it from the tree root. -/
def subvalues : TreeObject → List (List String × TreeObject)
  | .str _ => []
  | .dict es => subvaluesEntries es
termination_by structural t => t

/-- Stored values reachable from an entry list, with their key paths. -/
def subvaluesEntries : List (String × TreeObject) → List (List String × TreeObject)
  | [] => []
  | (k, v) :: es =>
    ([k], v) :: ((subvalues v).map (fun p => (k :: p.1, p.2)) ++ subvaluesEntries es)
termination_by structural es => es
end

/-- Path string of the node a key path leads to: each key appends one path
component, matching how `build_tree` forms child path strings. -/
def joinPath (root : String) (ks : List String) : String :=
  ks.foldl (fun p k => p ++ "/" ++ k) root

mutual
/-- True when every name in the subtree is nonempty, as is the case for every
real file system: a directory entry never has an empty base name. -/
def names_ok : FS → Bool
  | .file n => n ≠ EXCLUDE_SIGNAL
  | .dir n _ cs => n ≠ EXCLUDE_SIGNAL && names_ok_list cs
termination_by structural fs => fs

/-- Nonempty names, over a list of children. -/
def names_ok_list : List FS → Bool
  | [] => true
  | c :: cs => names_ok c && names_ok_list cs
termination_by structural cs => cs
end

/-! Concrete inputs used by individual claims.  Exclusion patterns are exact
path matchers, a special case of a regex search. -/

/-- Exclusion pattern list for claim C1: one pattern matching the path of the
child `a.py`. -/
def c1_pats : List (String → Bool) := [fun s => s == "/r/a.py"]

/-- Directory for claim C1: a root with one child that the pattern excludes. -/
def c1_fs : FS := .dir "r" true [.file "a.py"]

/-- Five-commit newest-first log for claim C2: timestamps 5 down to 1. -/
def c2_commits : List Commit :=
  [⟨5, some "a@x", some "A", .ofString "m5", ["f"]⟩,
   ⟨4, some "a@x", some "A", .ofString "m4", ["f"]⟩,
   ⟨3, some "b@x", some "B", .ofString "m3", ["f"]⟩,
   ⟨2, some "b@x", some "B", .ofString "m2", ["f"]⟩,
   ⟨1, some "c@x", some "C", .ofString "m1", ["f"]⟩]

/-- Exclusion pattern list for claim C3: one pattern matching the root path
itself. -/
def c3_pats : List (String → Bool) := [fun s => s == "/r"]

/-- Directory for claim C3. -/
def c3_fs : FS := .dir "r" true [.file "a"]

/-- Directory of the end-to-end scenario of claim C4: files `a.py` and
`b.txt` and a subdirectory `sub` containing `c.md`. -/
def c4_fs : FS := .dir "root" true [.file "a.py", .file "b.txt", .dir "sub" true [.file "c.md"]]

/-- Directory for the C5 witness: a readable root with a plain file and an
unreadable subdirectory. -/
def c5_fs_children : List FS := [.file "a.txt", .dir "locked" false [.file "hidden"]]

/-- Out-of-window commit for claim C6: timestamp 20, window [0, 10]. -/
def c6_commit : Commit := ⟨20, some "a@x", some "A", .ofString "late", ["f", "g"]⟩

/-- Commit for the C9 witness: its message is the byte sequence `0xFF`, which
is not valid UTF-8, and it touches two files. -/
def c9_commit : Commit := ⟨7, some "a@x", some "A", .ofBytes [0xFF], ["f", "g"]⟩

/-- Children for the C10 witness: the subdirectory `sub` whose only child is
excluded, next to a plain file. -/
def c10_fs_children : List FS := [.dir "sub" true [.file "drop.md"], .file "keep.txt"]

/-- Exclusion pattern list for the C10 witness: matches only the grandchild
`drop.md`. -/
def c10_pats : List (String → Bool) := [fun s => s == "/r/sub/drop.md"]

/-- The dict-building fold of the directory loop of `build_tree`
(`file_structure.py` lines 76 to 81), over an already sorted pair list. -/
def fold_entries (l : List (String × TreeObject)) : List (String × TreeObject) :=
  l.foldl (fun acc kv => if is_exclude_signal kv.2 then acc else insertEntry acc kv.1 kv.2) []

/-! Helper lemmas about the code-point order and the stable sort. -/

theorem strLeChars_total : ∀ a b : List Char, strLeChars a b = true ∨ strLeChars b a = true := by
  intro a
  induction a with
  | nil => intro b; left; simp [strLeChars]
  | cons c cs ih =>
    intro b
    cases b with
    | nil => right; simp [strLeChars]
    | cons d ds =>
      rcases Nat.lt_trichotomy c.toNat d.toNat with h | h | h
      · left; simp [strLeChars, h]
      · rcases ih ds with hcd | hcd
        · left; simp [strLeChars, h, hcd]
        · right; simp [strLeChars, h, hcd]
      · right; simp [strLeChars, h]

theorem strLeChars_trans :
    ∀ a b c : List Char, strLeChars a b = true → strLeChars b c = true →
      strLeChars a c = true := by
  intro a
  induction a with
  | nil => intro b c _ _; simp [strLeChars]
  | cons x xs ih =>
    intro b c hab hbc
    cases b with
    | nil => simp [strLeChars] at hab
    | cons y ys =>
      cases c with
      | nil => simp [strLeChars] at hbc
      | cons z zs =>
        simp only [strLeChars] at hab hbc ⊢
        by_cases h1 : x.toNat < y.toNat
        · by_cases h2 : y.toNat < z.toNat
          · have hxz : x.toNat < z.toNat := Nat.lt_trans h1 h2
            simp [hxz]
          · by_cases h3 : z.toNat < y.toNat
            · simp [h2, h3] at hbc
            · have hxz : x.toNat < z.toNat := by omega
              simp [hxz]
        · by_cases h4 : y.toNat < x.toNat
          · simp [h1, h4] at hab
          · simp only [h1, h4, if_neg, if_false] at hab
            by_cases h2 : y.toNat < z.toNat
            · have hxz : x.toNat < z.toNat := by omega
              simp [hxz]
            · by_cases h3 : z.toNat < y.toNat
              · simp [h2, h3] at hbc
              · have h5 : ¬ x.toNat < z.toNat := by omega
                have h6 : ¬ z.toNat < x.toNat := by omega
                simp only [h2, h3, if_neg, if_false] at hbc
                simp only [h5, h6, if_neg, if_false]
                exact ih ys zs hab hbc

theorem strLe_total : ∀ a b : String, strLe a b = true ∨ strLe b a = true := by
  intro a b; exact strLeChars_total a.data b.data

theorem strLe_trans :
    ∀ a b c : String, strLe a b = true → strLe b c = true → strLe a c = true := by
  intro a b c; exact strLeChars_trans a.data b.data c.data

theorem mem_insertLe {α : Type} (le : α → α → Bool) (a x : α) :
    ∀ l : List α, x ∈ insertLe le a l ↔ x = a ∨ x ∈ l := by
  intro l
  induction l with
  | nil => simp [insertLe]
  | cons b l ih =>
    by_cases h : le a b
    · simp [insertLe, h]
    · simp [insertLe, h, ih]
      tauto

theorem perm_insertLe {α : Type} (le : α → α → Bool) (a : α) :
    ∀ l : List α, (insertLe le a l).Perm (a :: l) := by
  intro l
  induction l with
  | nil => simp [insertLe]
  | cons b l ih =>
    by_cases h : le a b
    · simp [insertLe, h]
    · simp only [insertLe, h, if_false, Bool.false_eq_true]
      exact (ih.cons b).trans (List.Perm.swap a b l)

theorem perm_sortLe {α : Type} (le : α → α → Bool) :
    ∀ l : List α, (sortLe le l).Perm l := by
  intro l
  induction l with
  | nil => simp [sortLe]
  | cons a l ih =>
    simp only [sortLe]
    exact (perm_insertLe le a (sortLe le l)).trans (ih.cons a)

theorem mem_sortLe {α : Type} (le : α → α → Bool) (x : α) (l : List α) :
    x ∈ sortLe le l ↔ x ∈ l :=
  (perm_sortLe le l).mem_iff

theorem pairwise_insertLe {α : Type} (le : α → α → Bool)
    (htot : ∀ x y, le x y = true ∨ le y x = true)
    (htrans : ∀ x y z, le x y = true → le y z = true → le x z = true)
    (a : α) :
    ∀ l : List α, l.Pairwise (fun x y => le x y = true) →
      (insertLe le a l).Pairwise (fun x y => le x y = true) := by
  intro l
  induction l with
  | nil => simp [insertLe]
  | cons b l ih =>
    intro hp
    rw [List.pairwise_cons] at hp
    by_cases h : le a b
    · simp only [insertLe, h, if_true]
      rw [List.pairwise_cons]
      refine ⟨?_, List.pairwise_cons.mpr hp⟩
      intro y hy
      rcases List.mem_cons.mp hy with hy | hy
      · exact hy ▸ h
      · exact htrans a b y h (hp.1 y hy)
    · simp only [insertLe, h, if_false, Bool.false_eq_true]
      rw [List.pairwise_cons]
      refine ⟨?_, ih hp.2⟩
      intro y hy
      rcases (mem_insertLe le a y _).mp hy with hy | hy
      · rcases htot a b with hab | hba
        · exact absurd hab h
        · rw [hy]; exact hba
      · exact hp.1 y hy

theorem pairwise_sortLe {α : Type} (le : α → α → Bool)
    (htot : ∀ x y, le x y = true ∨ le y x = true)
    (htrans : ∀ x y z, le x y = true → le y z = true → le x z = true) :
    ∀ l : List α, (sortLe le l).Pairwise (fun x y => le x y = true) := by
  intro l
  induction l with
  | nil => simp [sortLe]
  | cons a l ih =>
    simp only [sortLe]
    exact pairwise_insertLe le htot htrans a (sortLe le l) ih

/-! Helper lemmas about dict insertion and the dict-building fold. -/

theorem mem_insertEntry :
    ∀ (es : List (String × TreeObject)) (k0 : String) (v0 : TreeObject)
      (kv : String × TreeObject),
      kv ∈ insertEntry es k0 v0 → kv ∈ es ∨ kv = (k0, v0) := by
  intro es k0 v0
  induction es with
  | nil =>
    intro kv h
    simp [insertEntry] at h
    right; simp [h]
  | cons e es ih =>
    intro kv h
    rcases e with ⟨k1, v1⟩
    by_cases hk : k1 = k0
    · simp only [insertEntry, hk, if_true] at h
      rcases List.mem_cons.mp h with h | h
      · right; rw [h]
      · left; exact List.mem_cons_of_mem _ h
    · simp only [insertEntry, hk, if_false] at h
      rcases List.mem_cons.mp h with h | h
      · left; rw [h]; exact List.mem_cons_self _ _
      · rcases ih kv h with h2 | h2
        · left; exact List.mem_cons_of_mem _ h2
        · right; exact h2

theorem insertEntry_of_not_mem :
    ∀ (es : List (String × TreeObject)) (k : String) (v : TreeObject),
      k ∉ es.map Prod.fst → insertEntry es k v = es ++ [(k, v)] := by
  intro es k v
  induction es with
  | nil => intro _; rfl
  | cons e es ih =>
    intro h
    rcases e with ⟨k1, v1⟩
    simp only [List.map_cons, List.mem_cons] at h
    push_neg at h
    have hk : k1 ≠ k := fun hh => h.1 hh.symm
    simp [insertEntry, hk, ih h.2]

theorem pairwise_insertEntry :
    ∀ (es : List (String × TreeObject)) (k : String) (v : TreeObject),
      es.Pairwise (fun x y => strLe x.1 y.1 = true) →
      (∀ kv ∈ es, strLe kv.1 k = true) →
      (insertEntry es k v).Pairwise (fun x y => strLe x.1 y.1 = true) := by
  intro es k v
  induction es with
  | nil => intro _ _; simp [insertEntry]
  | cons e es ih =>
    intro hp hall
    rcases e with ⟨k1, v1⟩
    rw [List.pairwise_cons] at hp
    by_cases hk : k1 = k
    · simp only [insertEntry, hk, if_true]
      rw [List.pairwise_cons]
      exact ⟨fun y hy => hk ▸ hp.1 y hy, hp.2⟩
    · simp only [insertEntry, hk, if_false]
      rw [List.pairwise_cons]
      refine ⟨?_, ih hp.2 (fun kv hkv => hall kv (List.mem_cons_of_mem _ hkv))⟩
      intro y hy
      rcases mem_insertEntry es k v y hy with h2 | h2
      · exact hp.1 y h2
      · rw [h2]; exact hall (k1, v1) (List.mem_cons_self _ _)

theorem mem_foldl_entries :
    ∀ (l acc : List (String × TreeObject)) (kv : String × TreeObject),
      kv ∈ l.foldl
        (fun acc2 kv2 => if is_exclude_signal kv2.2 then acc2 else insertEntry acc2 kv2.1 kv2.2)
        acc →
      kv ∈ acc ∨ (kv ∈ l ∧ is_exclude_signal kv.2 = false) := by
  intro l
  induction l with
  | nil =>
    intro acc kv h
    left; simpa using h
  | cons e l ih =>
    intro acc kv h
    simp only [List.foldl_cons] at h
    by_cases hs : is_exclude_signal e.2
    · rw [if_pos hs] at h
      rcases ih acc kv h with h2 | h2
      · left; exact h2
      · right; exact ⟨List.mem_cons_of_mem _ h2.1, h2.2⟩
    · rw [if_neg hs] at h
      rcases ih _ kv h with h2 | h2
      · rcases mem_insertEntry acc e.1 e.2 kv h2 with h3 | h3
        · left; exact h3
        · right
          constructor
          · rw [h3]; exact List.mem_cons_self _ _
          · rw [h3]; simpa using hs
      · right; exact ⟨List.mem_cons_of_mem _ h2.1, h2.2⟩

theorem foldl_entries_eq_filter_aux :
    ∀ (l acc : List (String × TreeObject)),
      (∀ k ∈ l.map Prod.fst, k ∉ acc.map Prod.fst) →
      (l.map Prod.fst).Nodup →
      l.foldl
        (fun acc2 kv2 => if is_exclude_signal kv2.2 then acc2 else insertEntry acc2 kv2.1 kv2.2)
        acc
        = acc ++ l.filter (fun kv => !is_exclude_signal kv.2) := by
  intro l
  induction l with
  | nil => intro acc _ _; simp
  | cons e l ih =>
    intro acc hdisj hnd
    simp only [List.map_cons, List.nodup_cons] at hnd
    simp only [List.foldl_cons]
    by_cases hs : is_exclude_signal e.2
    · rw [if_pos hs]
      rw [ih acc (fun k hk => hdisj k (by simp [hk])) hnd.2]
      simp [List.filter_cons, hs]
    · rw [if_neg hs]
      have hnotin : e.1 ∉ acc.map Prod.fst := hdisj e.1 (by simp)
      rw [insertEntry_of_not_mem acc e.1 e.2 hnotin]
      rw [ih (acc ++ [(e.1, e.2)]) ?_ hnd.2]
      · simp [List.filter_cons, hs]
      · intro k hk
        simp only [List.map_append, List.mem_append]
        push_neg
        constructor
        · exact hdisj k (by simp [hk])
        · intro hcontra
          simp at hcontra
          rw [hcontra] at hk
          exact hnd.1 hk

theorem foldl_entries_const :
    ∀ (l acc : List (String × TreeObject)),
      (∀ kv ∈ l, is_exclude_signal kv.2 = true) →
      l.foldl
        (fun acc2 kv2 => if is_exclude_signal kv2.2 then acc2 else insertEntry acc2 kv2.1 kv2.2)
        acc = acc := by
  intro l
  induction l with
  | nil => intro acc _; rfl
  | cons e l ih =>
    intro acc hall
    simp only [List.foldl_cons, if_pos (hall e (List.mem_cons_self _ _))]
    exact ih acc (fun kv hkv => hall kv (List.mem_cons_of_mem _ hkv))

theorem pairwise_foldl_entries :
    ∀ (l acc : List (String × TreeObject)),
      acc.Pairwise (fun x y => strLe x.1 y.1 = true) →
      (∀ x ∈ acc, ∀ y ∈ l, strLe x.1 y.1 = true) →
      l.Pairwise (fun x y => strLe x.1 y.1 = true) →
      (l.foldl
        (fun acc2 kv2 => if is_exclude_signal kv2.2 then acc2 else insertEntry acc2 kv2.1 kv2.2)
        acc).Pairwise (fun x y => strLe x.1 y.1 = true) := by
  intro l
  induction l with
  | nil => intro acc hacc _ _; simpa using hacc
  | cons e l ih =>
    intro acc hacc hcross hl
    rw [List.pairwise_cons] at hl
    simp only [List.foldl_cons]
    by_cases hs : is_exclude_signal e.2
    · rw [if_pos hs]
      exact ih acc hacc (fun x hx y hy => hcross x hx y (List.mem_cons_of_mem _ hy)) hl.2
    · rw [if_neg hs]
      refine ih _ ?_ ?_ hl.2
      · exact pairwise_insertEntry acc e.1 e.2 hacc
          (fun kv hkv => hcross kv hkv e (List.mem_cons_self _ _))
      · intro x hx y hy
        rcases mem_insertEntry acc e.1 e.2 x hx with h2 | h2
        · exact hcross x h2 y (List.mem_cons_of_mem _ hy)
        · rw [h2]; exact hl.1 y hy

/-! Helper lemmas about child_pairs and the directory case of build_tree. -/

theorem child_pairs_keys (md : Option Nat) (pats : List (String → Bool)) (p : String) :
    ∀ (cs : List FS) (d : Nat),
      (child_pairs md pats p cs d).map Prod.fst = cs.map FS.name := by
  intro cs
  induction cs with
  | nil => intro d; simp [child_pairs]
  | cons c cs ih => intro d; simp [child_pairs, ih d]

theorem mem_child_pairs_of_mem (md : Option Nat) (pats : List (String → Bool)) (p : String) :
    ∀ (cs : List FS) (d : Nat) (c : FS), c ∈ cs →
      (c.name, build_tree md pats (p ++ "/" ++ c.name) c (d + 1)) ∈ child_pairs md pats p cs d := by
  intro cs
  induction cs with
  | nil => intro d c hc; cases hc
  | cons c0 cs ih =>
    intro d c hc
    rcases List.mem_cons.mp hc with hc | hc
    · rw [hc]; exact List.mem_cons_self _ _
    · exact List.mem_cons_of_mem _ (ih d c hc)

theorem of_mem_child_pairs (md : Option Nat) (pats : List (String → Bool)) (p : String) :
    ∀ (cs : List FS) (d : Nat) (kv : String × TreeObject),
      kv ∈ child_pairs md pats p cs d →
      ∃ c ∈ cs, kv = (c.name, build_tree md pats (p ++ "/" ++ c.name) c (d + 1)) := by
  intro cs
  induction cs with
  | nil => intro d kv h; simp [child_pairs] at h
  | cons c0 cs ih =>
    intro d kv h
    simp only [child_pairs] at h
    rcases List.mem_cons.mp h with h | h
    · exact ⟨c0, List.mem_cons_self _ _, h⟩
    · rcases ih d kv h with ⟨c, hc, he⟩
      exact ⟨c, List.mem_cons_of_mem _ hc, he⟩

theorem build_tree_eq (md : Option Nat) (pats : List (String → Bool)) (p : String)
    (fs : FS) (d : Nat) :
    build_tree md pats p fs d =
      if depth_exceeded md d then .str END_SIGNAL
      else if should_exclude pats p then .str EXCLUDE_SIGNAL
      else match fs with
        | .file n => .str n
        | .dir _ false _ => .str "Permission denied"
        | .dir _ true cs =>
          .dict (fold_entries (sortLe (fun a b => strLe a.1 b.1) (child_pairs md pats p cs d))) := by
  cases fs with
  | file n => rfl
  | dir n r cs => cases r <;> rfl

theorem build_tree_excluded (md : Option Nat) (pats : List (String → Bool)) (p : String)
    (fs : FS) (d : Nat) (h : should_exclude pats p = true) :
    build_tree md pats p fs d =
      .str (if depth_exceeded md d then END_SIGNAL else EXCLUDE_SIGNAL) := by
  rw [build_tree_eq]
  by_cases ht : depth_exceeded md d
  · simp [ht]
  · simp only [Bool.not_eq_true] at ht
    simp [ht, h]

theorem build_tree_dir_entries (md : Option Nat) (pats : List (String → Bool)) (p : String)
    (n : String) (cs : List FS) (d : Nat)
    (ht : depth_exceeded md d = false) (he : should_exclude pats p = false) :
    build_tree md pats p (.dir n true cs) d =
      .dict (fold_entries (sortLe (fun a b => strLe a.1 b.1) (child_pairs md pats p cs d))) := by
  rw [build_tree_eq]
  simp [ht, he]

theorem build_tree_unreadable (md : Option Nat) (pats : List (String → Bool)) (p : String)
    (n : String) (cs : List FS) (d : Nat)
    (ht : depth_exceeded md d = false) (he : should_exclude pats p = false) :
    build_tree md pats p (.dir n false cs) d = .str "Permission denied" := by
  rw [build_tree_eq]
  simp [ht, he]

theorem mem_build_entries (md : Option Nat) (pats : List (String → Bool)) (p : String)
    (cs : List FS) (d : Nat) (kv : String × TreeObject)
    (h : kv ∈ fold_entries (sortLe (fun a b => strLe a.1 b.1) (child_pairs md pats p cs d))) :
    ∃ c ∈ cs, kv = (c.name, build_tree md pats (p ++ "/" ++ c.name) c (d + 1))
      ∧ is_exclude_signal kv.2 = false := by
  rw [fold_entries] at h
  rcases mem_foldl_entries _ [] kv h with h2 | h2
  · cases h2
  · have h3 := (mem_sortLe _ kv _).mp h2.1
    rcases of_mem_child_pairs md pats p cs d kv h3 with ⟨c, hc, he⟩
    exact ⟨c, hc, he, h2.2⟩

/-! Helper lemmas about the walks over the built tree. -/

theorem mem_nodesEntries :
    ∀ (es : List (String × TreeObject)) (t : TreeObject),
      t ∈ nodesEntries es → ∃ kv ∈ es, t ∈ nodes kv.2 := by
  intro es
  induction es with
  | nil => intro t h; simp [nodesEntries] at h
  | cons e es ih =>
    intro t h
    rcases e with ⟨k, v⟩
    simp only [nodesEntries] at h
    rcases List.mem_append.mp h with h | h
    · exact ⟨(k, v), List.mem_cons_self _ _, h⟩
    · rcases ih t h with ⟨kv, hkv, ht⟩
      exact ⟨kv, List.mem_cons_of_mem _ hkv, ht⟩

theorem mem_subvaluesEntries :
    ∀ (es : List (String × TreeObject)) (q : List String × TreeObject),
      q ∈ subvaluesEntries es →
      ∃ k w, (k, w) ∈ es ∧
        (q = ([k], w) ∨ ∃ ks2, q.1 = k :: ks2 ∧ (ks2, q.2) ∈ subvalues w) := by
  intro es
  induction es with
  | nil => intro q h; simp [subvaluesEntries] at h
  | cons e es ih =>
    intro q h
    rcases e with ⟨k, v⟩
    simp only [subvaluesEntries] at h
    rcases List.mem_cons.mp h with h | h
    · exact ⟨k, v, List.mem_cons_self _ _, Or.inl h⟩
    · rcases List.mem_append.mp h with h | h
      · rcases List.mem_map.mp h with ⟨q0, hq0, he⟩
        refine ⟨k, v, List.mem_cons_self _ _, Or.inr ⟨q0.1, ?_, ?_⟩⟩
        · rw [← he]
        · rw [← he]; exact hq0
      · rcases ih q h with ⟨k2, w, hkw, hrest⟩
        exact ⟨k2, w, List.mem_cons_of_mem _ hkw, hrest⟩

theorem joinPath_nil (p : String) : joinPath p [] = p := rfl

theorem joinPath_cons (p : String) (k : String) (ks : List String) :
    joinPath p (k :: ks) = joinPath (p ++ "/" ++ k) ks := rfl

theorem names_ok_list_mem :
    ∀ (cs : List FS) (c : FS), names_ok_list cs = true → c ∈ cs → names_ok c = true := by
  intro cs
  induction cs with
  | nil => intro c _ hc; cases hc
  | cons c0 cs ih =>
    intro c hok hc
    simp only [names_ok_list, Bool.and_eq_true] at hok
    rcases List.mem_cons.mp hc with hc | hc
    · rw [hc]; exact hok.1
    · exact ih c hok.2 hc

mutual
theorem ofRaw_toRaw : ∀ t : TreeObject, ofRaw (toRaw t) = t
  | .str _ => rfl
  | .dict es => congrArg TreeObject.dict (ofRawEntries_toRawEntries es)
termination_by structural t => t

theorem ofRawEntries_toRawEntries :
    ∀ es : List (String × TreeObject), ofRawEntries (toRawEntries es) = es
  | [] => rfl
  | (k, v) :: es => by
    simp only [toRawEntries, ofRawEntries]
    rw [ofRaw_toRaw v, ofRawEntries_toRawEntries es]
termination_by structural es => es
end

/-! Claim C2 -/

/-- C2 counterexample: over the 5-commit newest-first log with start = 10
chronologically after end = 0, the stop condition fires on the very first
commit (5 < 10 and 5 > 0), so the traversal returns no entry at all instead
of all five. -/
theorem c2_counterexample :
    (0 : Int) < 10 ∧ c2_commits.length = 5 ∧ get_commit_history c2_commits 10 0 = [] :=
  ⟨by decide, rfl, rfl⟩

/-- C2 (amended): the early-stop condition of get_commit_history can never be
true when start is chronologically at or before end (start ≤ end, including a
zero-width window), so in that case the traversal never stops early and
returns an entry for every commit in the history; for start strictly after
end the condition does fire on any commit strictly between end and start. -/
theorem c2_never_stops_when_start_le_end :
    ∀ (cs : List Commit) (s e : Int), s ≤ e →
      get_commit_history cs s e = cs.map mkCommitEntry := by
  intro cs s e hse
  induction cs with
  | nil => rfl
  | cons c cs ih =>
    have hstop : ¬ (c.committed_datetime < s ∧ c.committed_datetime > e) := by omega
    simp [get_commit_history, hstop, ih]

/-- C2 witness: with the window [0, 10] (start at or before end) the same
5-commit log yields one entry per commit. -/
theorem c2_witness :
    (0 : Int) ≤ 10 ∧ get_commit_history c2_commits 0 10 = c2_commits.map mkCommitEntry :=
  ⟨by decide, c2_never_stops_when_start_le_end c2_commits 0 10 (by decide)⟩

/-! Claim C4 -/

/-- C4 counterexample: on the scenario directory with max_depth = 0, the
result is not the mapping the claim states, because the depth check fires
before the file check, so the immediate file children also collapse to the
truncation marker instead of file leaves holding their names. -/
theorem c4_counterexample :
    ¬ (get_file_structure (some 0) [] "/root" c4_fs
        = [("root", TreeObject.dict
            [("a.py", TreeObject.str "a.py"), ("b.txt", TreeObject.str "b.txt"),
             ("sub", TreeObject.str END_SIGNAL)])]) := by
  intro h
  have h2 : [("root", TreeObject.dict
      [("a.py", TreeObject.str END_SIGNAL), ("b.txt", TreeObject.str END_SIGNAL),
       ("sub", TreeObject.str END_SIGNAL)])]
      = [("root", TreeObject.dict
          [("a.py", TreeObject.str "a.py"), ("b.txt", TreeObject.str "b.txt"),
           ("sub", TreeObject.str END_SIGNAL)])] := h
  simp [END_SIGNAL] at h2

/-- C4 (amended): with max_depth = 0 the names of all immediate children of
the root still appear as keys, but every immediate child, file or directory,
maps to the Truncated marker: the depth check precedes the file check, so
files at depth 1 truncate exactly like directories. -/
theorem c4_depth_zero_truncates_all_children :
    get_file_structure (some 0) [] "/root" c4_fs
      = [("root", TreeObject.dict
          [("a.py", TreeObject.str END_SIGNAL), ("b.txt", TreeObject.str END_SIGNAL),
           ("sub", TreeObject.str END_SIGNAL)])] := rfl

/-! Claim C6 -/

/-- C6: get_commit_history has a stopping rule but no filtering rule: the
result is exactly one CommitEntry for every commit up to (excluding) the
first one satisfying the stop condition, with no membership test against
[start, end]; concretely, a commit at time 20 is emitted for the window
[0, 10] even though it lies outside it. -/
theorem c6_stopping_rule_no_filtering :
    (∀ (cs : List Commit) (s e : Int),
        get_commit_history cs s e
          = (cs.takeWhile (fun c => !stop_cond s e c)).map mkCommitEntry) ∧
      c6_commit.committed_datetime > 10 ∧
      get_commit_history [c6_commit] 0 10 = [mkCommitEntry c6_commit] := by
  refine ⟨?_, by decide, rfl⟩
  intro cs s e
  induction cs with
  | nil => rfl
  | cons c cs ih =>
    by_cases h : c.committed_datetime < s ∧ c.committed_datetime > e
    · have hb : stop_cond s e c = true := by simp [stop_cond, h]
      simp [get_commit_history, h, List.takeWhile_cons, hb]
    · have hb : stop_cond s e c = false := by
        simp only [stop_cond, decide_eq_false_iff_not]
        exact h
      simp [get_commit_history, h, List.takeWhile_cons, hb, ih]

/-! Claim C9 -/

/-- C9: when a commit message arrives as a byte sequence that is not valid
UTF-8, the constructed CommitEntry has the empty string as message, while
files_changed is still the count of files touched by the commit. -/
theorem c9_invalid_utf8_message_empty (c : Commit) (bs : List Nat)
    (hmsg : c.message = PyMessage.ofBytes bs) (hbad : utf8Decode bs = none) :
    (mkCommitEntry c).message = "" ∧ (mkCommitEntry c).files_changed = c.stats_files.length := by
  constructor
  · simp [mkCommitEntry, parse_byte_message, hmsg, hbad]
  · rfl

/-- C9 witness: the commit whose message is the invalid byte 0xFF yields an
empty message while files_changed counts its two touched files. -/
theorem c9_witness :
    c9_commit.message = PyMessage.ofBytes [0xFF] ∧ utf8Decode [0xFF] = none ∧
      (mkCommitEntry c9_commit).message = "" ∧
      (mkCommitEntry c9_commit).files_changed = c9_commit.stats_files.length :=
  ⟨rfl, rfl, c9_invalid_utf8_message_empty c9_commit [0xFF] rfl rfl⟩

/-! Claim C7 -/

/-- C7: rendering is deterministic and a pure function of the built tree:
the outline returned by get_formated_tree is exactly format_tree applied to
the returned tree with the raw form as its serialization, rendering the same
tree twice yields the same lines, and deserializing the raw serializable form
and re-rendering yields the same outline. -/
theorem c7_render_deterministic_roundtrip :
    ∀ (md : Option Nat) (pats : List (String → Bool)) (root_path : String) (fs : FS)
      (es : List (String × TreeObject)) (indent : String),
      (get_formated_tree md pats root_path fs).2.2
          = format_tree (get_formated_tree md pats root_path fs).1 "" ∧
      (get_formated_tree md pats root_path fs).2.1
          = toRawEntries (get_formated_tree md pats root_path fs).1 ∧
      format_tree es indent = format_tree es indent ∧
      ofRawEntries (toRawEntries es) = es ∧
      format_tree (ofRawEntries (toRawEntries es)) indent = format_tree es indent := by
  intro md pats root_path fs es indent
  refine ⟨rfl, rfl, rfl, ofRawEntries_toRawEntries es, ?_⟩
  rw [ofRawEntries_toRawEntries es]

theorem build_tree_file (md : Option Nat) (pats : List (String → Bool)) (p : String)
    (n : String) (d : Nat)
    (ht : depth_exceeded md d = false) (he : should_exclude pats p = false) :
    build_tree md pats p (FS.file n) d = .str n := by
  rw [build_tree_eq]
  simp [ht, he]

theorem c1_aux :
    ∀ (N : Nat) (fs : FS), sizeOf fs = N →
      ∀ (md : Option Nat) (pats : List (String → Bool)) (p : String) (d : Nat)
        (ks : List String) (v : TreeObject),
        (ks, v) ∈ subvalues (build_tree md pats p fs d) →
        should_exclude pats (joinPath p ks) = true →
        v = TreeObject.str END_SIGNAL := by
  intro N
  induction N using Nat.strong_induction_on with
  | _ N ih =>
    intro fs hsz md pats p d ks v hmem hexcl
    cases ht : depth_exceeded md d with
    | true =>
      rw [build_tree_eq, ht] at hmem
      simp [subvalues] at hmem
    | false =>
      cases hx : should_exclude pats p with
      | true =>
        rw [build_tree_excluded md pats p fs d hx] at hmem
        cases hht : depth_exceeded md d <;> rw [hht] at hmem <;> simp [subvalues] at hmem
      | false =>
        cases fs with
        | file n =>
          rw [build_tree_file md pats p n d ht hx] at hmem
          simp [subvalues] at hmem
        | dir n r cs =>
          cases r with
          | false =>
            rw [build_tree_unreadable md pats p n cs d ht hx] at hmem
            simp [subvalues] at hmem
          | true =>
            rw [build_tree_dir_entries md pats p n cs d ht hx] at hmem
            have hmem2 : (ks, v) ∈ subvaluesEntries
                (fold_entries (sortLe (fun a b => strLe a.1 b.1)
                  (child_pairs md pats p cs d))) := by
              simpa [subvalues] using hmem
            rcases mem_subvaluesEntries _ _ hmem2 with ⟨k, w, hkw, hcase⟩
            rcases mem_build_entries md pats p cs d (k, w) hkw with ⟨c, hc, heq, hsig⟩
            injection heq with hk hw
            have hsig2 : is_exclude_signal w = false := hsig
            have hlt : sizeOf c < N := by
              rw [← hsz]
              have h1 : sizeOf c < sizeOf cs := List.sizeOf_lt_of_mem hc
              have h2 : sizeOf (FS.dir n true cs) = 1 + sizeOf n + sizeOf true + sizeOf cs := by
                simp
              omega
            rcases hcase with hq | ⟨ks2, hks, hmem3⟩
            · injection hq with hks hv
              rw [hks, joinPath_cons, joinPath_nil, hk] at hexcl
              cases ht2 : depth_exceeded md (d + 1) with
              | true =>
                rw [hv, hw, build_tree_excluded md pats _ c (d + 1) hexcl, ht2]
                simp
              | false =>
                exfalso
                rw [hw, build_tree_excluded md pats _ c (d + 1) hexcl, ht2] at hsig2
                simp [is_exclude_signal] at hsig2
            · have hks2 : ks = k :: ks2 := hks
              have hmem4 : (ks2, v) ∈ subvalues w := hmem3
              rw [hks2, joinPath_cons, hk] at hexcl
              rw [hw] at hmem4
              exact ih (sizeOf c) hlt c rfl md pats (p ++ "/" ++ c.name) (d + 1) ks2 v hmem4 hexcl

/-! Claim C1 -/

/-- C1 counterexample: with max_depth = 0 and a pattern matching the child
path, the excluded child appears in the built tree as a Truncated marker: the
depth check at `file_structure.py` line 66 runs before the exclusion check at
line 70, so at the truncation boundary the exclusion never gets a chance. -/
theorem c1_counterexample :
    should_exclude c1_pats "/r/a.py" = true ∧
      build_tree (some 0) c1_pats "/r" c1_fs 0
        = TreeObject.dict [("a.py", TreeObject.str END_SIGNAL)] :=
  ⟨rfl, rfl⟩

/-- C1 (amended): the truncation check takes priority over the exclusion
check, not the other way around: a stored value whose full path matches an
exclusion pattern can only be the Truncated marker; everywhere the depth
check does not fire first, an excluded path never appears at all. -/
theorem c1_excluded_appears_only_truncated (md : Option Nat)
    (pats : List (String → Bool)) (p : String) (fs : FS) (d : Nat)
    (ks : List String) (v : TreeObject)
    (hmem : (ks, v) ∈ subvalues (build_tree md pats p fs d))
    (hexcl : should_exclude pats (joinPath p ks) = true) :
    v = TreeObject.str END_SIGNAL :=
  c1_aux (sizeOf fs) fs rfl md pats p d ks v hmem hexcl

/-- C1 witness: the excluded child of the counterexample directory is indeed
stored, and the amended theorem evaluates it to the Truncated marker. -/
theorem c1_witness :
    ((["a.py"], TreeObject.str "...")
        ∈ subvalues (build_tree (some 0) c1_pats "/r" c1_fs 0)) ∧
      should_exclude c1_pats (joinPath "/r" ["a.py"]) = true ∧
      TreeObject.str "..." = TreeObject.str END_SIGNAL :=
  ⟨List.Mem.head _, rfl,
    c1_excluded_appears_only_truncated (some 0) c1_pats "/r" c1_fs 0 ["a.py"]
      (TreeObject.str "...") (List.Mem.head _) rfl⟩

theorem c3_aux :
    ∀ (N : Nat) (fs : FS), sizeOf fs = N →
      ∀ (md : Option Nat) (pats : List (String → Bool)) (p : String) (d : Nat),
        names_ok fs = true → should_exclude pats p = false →
        ∀ t ∈ nodes (build_tree md pats p fs d), t ≠ TreeObject.str EXCLUDE_SIGNAL := by
  intro N
  induction N using Nat.strong_induction_on with
  | _ N ih =>
    intro fs hsz md pats p d hok hx t hmem
    cases ht : depth_exceeded md d with
    | true =>
      rw [build_tree_eq, ht] at hmem
      simp only [if_true, reduceIte, nodes, List.mem_singleton] at hmem
      rw [hmem]
      simp [END_SIGNAL, EXCLUDE_SIGNAL]
    | false =>
      cases fs with
      | file n =>
        rw [build_tree_file md pats p n d ht hx] at hmem
        simp only [nodes, List.mem_singleton] at hmem
        rw [hmem]
        simp only [names_ok, decide_eq_true_eq] at hok
        intro heq
        injection heq with hs
        exact hok hs
      | dir n r cs =>
        cases r with
        | false =>
          rw [build_tree_unreadable md pats p n cs d ht hx] at hmem
          simp only [nodes, List.mem_singleton] at hmem
          rw [hmem]
          simp [EXCLUDE_SIGNAL]
        | true =>
          rw [build_tree_dir_entries md pats p n cs d ht hx] at hmem
          simp only [nodes] at hmem
          rcases List.mem_cons.mp hmem with hmem | hmem
          · rw [hmem]
            intro heq
            exact TreeObject.noConfusion heq
          · rcases mem_nodesEntries _ t hmem with ⟨kv, hkv, htkv⟩
            rcases mem_build_entries md pats p cs d kv hkv with ⟨c, hc, heq, hsig⟩
            have hv : kv.2 = build_tree md pats (p ++ "/" ++ c.name) c (d + 1) := by
              rw [heq]
            rw [hv] at htkv hsig
            have hlt : sizeOf c < N := by
              rw [← hsz]
              have h1 : sizeOf c < sizeOf cs := List.sizeOf_lt_of_mem hc
              have h2 : sizeOf (FS.dir n true cs) = 1 + sizeOf n + sizeOf true + sizeOf cs := by
                simp
              omega
            cases hx2 : should_exclude pats (p ++ "/" ++ c.name) with
            | true =>
              rw [build_tree_excluded md pats _ c (d + 1) hx2] at htkv hsig
              cases ht2 : depth_exceeded md (d + 1) with
              | true =>
                rw [ht2] at htkv
                simp only [if_true, reduceIte, nodes, List.mem_singleton] at htkv
                rw [htkv]
                simp [END_SIGNAL, EXCLUDE_SIGNAL]
              | false =>
                exfalso
                rw [ht2] at hsig
                simp [is_exclude_signal] at hsig
            | false =>
              have hokc : names_ok c = true := by
                simp only [names_ok, Bool.and_eq_true] at hok
                exact names_ok_list_mem cs c hok.2 hc
              exact ih (sizeOf c) hlt c rfl md pats (p ++ "/" ++ c.name) (d + 1) hokc hx2 t htkv

/-! Claim C3 -/

/-- C3 counterexample: when the root path itself matches an exclusion
pattern, get_file_structure stores the exclusion sentinel as the value of the
root entry of the returned mapping, so the sentinel does appear as a stored
value of the final tree. -/
theorem c3_counterexample :
    get_file_structure none c3_pats "/r" c3_fs = [("r", TreeObject.str EXCLUDE_SIGNAL)] := rfl

/-- C3 (amended): provided the root path does not itself match an exclusion
pattern (and every name in the tree is nonempty, as on a real file system),
no node of the structure returned by get_file_structure equals the exclusion
sentinel: below the root the sentinel is filtered out during the build, and
it is stored only when the root itself is excluded. -/
theorem c3_no_sentinel_stored (md : Option Nat) (pats : List (String → Bool))
    (root_path : String) (fs : FS)
    (hroot : should_exclude pats root_path = false)
    (hnames : names_ok fs = true) :
    ∀ kv ∈ get_file_structure md pats root_path fs, ∀ t ∈ nodes kv.2,
      t ≠ TreeObject.str EXCLUDE_SIGNAL := by
  intro kv hkv t ht
  rw [get_file_structure, List.mem_singleton] at hkv
  subst hkv
  exact c3_aux (sizeOf fs) fs rfl md pats root_path 0 hnames hroot t ht

/-- C3 witness: with no exclusion patterns, no node of the returned structure
for the counterexample directory equals the sentinel. -/
theorem c3_witness :
    should_exclude [] "/r" = false ∧ names_ok c3_fs = true ∧
      ∀ kv ∈ get_file_structure none [] "/r" c3_fs, ∀ t ∈ nodes kv.2,
        t ≠ TreeObject.str EXCLUDE_SIGNAL :=
  ⟨rfl, rfl, c3_no_sentinel_stored none [] "/r" c3_fs rfl rfl⟩

theorem c8_aux :
    ∀ (N : Nat) (fs : FS), sizeOf fs = N →
      ∀ (md : Option Nat) (pats : List (String → Bool)) (p : String) (d : Nat)
        (t : TreeObject) (es : List (String × TreeObject)),
        t ∈ nodes (build_tree md pats p fs d) → t = TreeObject.dict es →
        es.Pairwise (fun a b => strLe a.1 b.1 = true) := by
  intro N
  induction N using Nat.strong_induction_on with
  | _ N ih =>
    intro fs hsz md pats p d t es hmem hdict
    cases ht : depth_exceeded md d with
    | true =>
      rw [build_tree_eq, ht] at hmem
      simp only [if_true, reduceIte, nodes, List.mem_singleton] at hmem
      rw [hdict] at hmem
      exact TreeObject.noConfusion hmem
    | false =>
      cases hx : should_exclude pats p with
      | true =>
        rw [build_tree_excluded md pats p fs d hx, ht] at hmem
        simp only [if_false, reduceIte, nodes, List.mem_singleton] at hmem
        rw [hdict] at hmem
        exact TreeObject.noConfusion hmem
      | false =>
        cases fs with
        | file n =>
          rw [build_tree_file md pats p n d ht hx] at hmem
          simp only [nodes, List.mem_singleton] at hmem
          rw [hdict] at hmem
          exact TreeObject.noConfusion hmem
        | dir n r cs =>
          cases r with
          | false =>
            rw [build_tree_unreadable md pats p n cs d ht hx] at hmem
            simp only [nodes, List.mem_singleton] at hmem
            rw [hdict] at hmem
            exact TreeObject.noConfusion hmem
          | true =>
            rw [build_tree_dir_entries md pats p n cs d ht hx] at hmem
            simp only [nodes] at hmem
            rcases List.mem_cons.mp hmem with hmem | hmem
            · rw [hdict] at hmem
              injection hmem with hes
              rw [hes]
              have hsorted : (sortLe (fun a b => strLe a.1 b.1)
                  (child_pairs md pats p cs d)).Pairwise
                    (fun a b => strLe a.1 b.1 = true) :=
                pairwise_sortLe (fun a b => strLe a.1 b.1)
                  (fun (x y : String × TreeObject) => strLe_total x.1 y.1)
                  (fun (x y z : String × TreeObject) => strLe_trans x.1 y.1 z.1) _
              rw [fold_entries]
              exact pairwise_foldl_entries _ [] (by simp) (by simp) hsorted
            · rcases mem_nodesEntries _ t hmem with ⟨kv, hkv, htkv⟩
              rcases mem_build_entries md pats p cs d kv hkv with ⟨c, hc, heq, hsig⟩
              have hv : kv.2 = build_tree md pats (p ++ "/" ++ c.name) c (d + 1) := by
                rw [heq]
              rw [hv] at htkv hsig
              have hlt : sizeOf c < N := by
                rw [← hsz]
                have h1 : sizeOf c < sizeOf cs := List.sizeOf_lt_of_mem hc
                have h2 : sizeOf (FS.dir n true cs)
                    = 1 + sizeOf n + sizeOf true + sizeOf cs := by simp
                omega
              cases hx2 : should_exclude pats (p ++ "/" ++ c.name) with
              | true =>
                rw [build_tree_excluded md pats _ c (d + 1) hx2] at htkv hsig
                cases ht2 : depth_exceeded md (d + 1) with
                | true =>
                  rw [ht2] at htkv
                  simp only [if_true, reduceIte, nodes, List.mem_singleton] at htkv
                  rw [hdict] at htkv
                  exact TreeObject.noConfusion htkv
                | false =>
                  exfalso
                  rw [ht2] at hsig
                  simp [is_exclude_signal] at hsig
              | false =>
                exact ih (sizeOf c) hlt c rfl md pats (p ++ "/" ++ c.name) (d + 1) t es
                  htkv hdict

/-! Claim C8 -/

/-- C8: in the built structure, the entries of every directory node are in
lexicographic (code-point, case-sensitive) order by key, and the rendered
outline emits one block per entry in that same entry order (the outline is the
concatenation of the per-entry blocks). -/
theorem c8_siblings_sorted_and_rendered_in_order :
    (∀ (md : Option Nat) (pats : List (String → Bool)) (p : String) (fs : FS) (d : Nat)
        (t : TreeObject) (es : List (String × TreeObject)),
        t ∈ nodes (build_tree md pats p fs d) → t = TreeObject.dict es →
        es.Pairwise (fun a b => strLe a.1 b.1 = true)) ∧
      ∀ (es : List (String × TreeObject)) (indent : String),
        format_tree es indent = (entry_blocks es indent).flatten := by
  constructor
  · intro md pats p fs d t es hmem hdict
    exact c8_aux (sizeOf fs) fs rfl md pats p d t es hmem hdict
  · intro es
    induction es with
    | nil => intro indent; rfl
    | cons e es ih =>
      intro indent
      rcases e with ⟨k, v⟩
      simp [format_tree, entry_blocks, ih]

/-- C8 witness: the tree built over a two-file directory listed out of order
has its entries sorted by name, the root dict being the first walked node. -/
theorem c8_witness :
    (TreeObject.dict [("a", TreeObject.str "a"), ("b", TreeObject.str "b")]
        ∈ nodes (build_tree none [] "/r" (FS.dir "r" true [FS.file "b", FS.file "a"]) 0)) ∧
      List.Pairwise (fun a b => strLe a.1 b.1 = true)
        [("a", TreeObject.str "a"), ("b", TreeObject.str "b")] :=
  ⟨List.Mem.head _,
    c8_siblings_sorted_and_rendered_in_order.1 none [] "/r"
      (FS.dir "r" true [FS.file "b", FS.file "a"]) 0
      (TreeObject.dict [("a", TreeObject.str "a"), ("b", TreeObject.str "b")])
      [("a", TreeObject.str "a"), ("b", TreeObject.str "b")] (List.Mem.head _) rfl⟩

theorem mem_fold_entries_of_mem (md : Option Nat) (pats : List (String → Bool)) (p : String)
    (cs : List FS) (d : Nat)
    (hnodup : (cs.map FS.name).Nodup) (c : FS) (hc : c ∈ cs)
    (hsig : is_exclude_signal (build_tree md pats (p ++ "/" ++ c.name) c (d + 1)) = false) :
    (c.name, build_tree md pats (p ++ "/" ++ c.name) c (d + 1))
      ∈ fold_entries (sortLe (fun a b => strLe a.1 b.1) (child_pairs md pats p cs d)) := by
  have hperm : ((sortLe (fun a b => strLe a.1 b.1) (child_pairs md pats p cs d)).map
      Prod.fst).Perm ((child_pairs md pats p cs d).map Prod.fst) :=
    (perm_sortLe _ _).map Prod.fst
  have hkeys : (child_pairs md pats p cs d).map Prod.fst = cs.map FS.name :=
    child_pairs_keys md pats p cs d
  have hnd : ((sortLe (fun a b => strLe a.1 b.1)
      (child_pairs md pats p cs d)).map Prod.fst).Nodup := by
    rw [hperm.nodup_iff, hkeys]
    exact hnodup
  rw [fold_entries, foldl_entries_eq_filter_aux _ [] (by simp) hnd]
  simp only [List.nil_append]
  apply List.mem_filter.mpr
  constructor
  · exact (mem_sortLe _ _ _).mpr (mem_child_pairs_of_mem md pats p cs d c hc)
  · simp [hsig]

/-! Claim C5 -/

/-- C5: an unreadable directory degrades to the Permission denied marker for
that directory alone: in a readable parent that is neither truncated nor
excluded, the unreadable child contributes the marker under its own name
while every other child whose result is not the exclusion sentinel still
contributes its own entry, so the traversal continues instead of aborting.
In the model a listing failure is the PermissionError flag, the one failure
mode the source handles, and build_tree is a total function (no exception
escapes). -/
theorem c5_unreadable_is_local (md : Option Nat) (pats : List (String → Bool))
    (p n : String) (cs : List FS) (d : Nat) (m : String) (cc : List FS)
    (htr : depth_exceeded md d = false)
    (htr1 : depth_exceeded md (d + 1) = false)
    (hex : should_exclude pats p = false)
    (hnodup : (cs.map FS.name).Nodup)
    (hmem : FS.dir m false cc ∈ cs)
    (hexm : should_exclude pats (p ++ "/" ++ m) = false) :
    ∃ es, build_tree md pats p (FS.dir n true cs) d = TreeObject.dict es ∧
      (m, TreeObject.str "Permission denied") ∈ es ∧
      ∀ c ∈ cs, is_exclude_signal (build_tree md pats (p ++ "/" ++ c.name) c (d + 1)) = false →
        (c.name, build_tree md pats (p ++ "/" ++ c.name) c (d + 1)) ∈ es := by
  have hpd : build_tree md pats (p ++ "/" ++ m) (FS.dir m false cc) (d + 1)
      = TreeObject.str "Permission denied" :=
    build_tree_unreadable md pats (p ++ "/" ++ m) m cc (d + 1) htr1 hexm
  refine ⟨fold_entries (sortLe (fun a b => strLe a.1 b.1) (child_pairs md pats p cs d)),
    build_tree_dir_entries md pats p n cs d htr hex, ?_, ?_⟩
  · have h2 := mem_fold_entries_of_mem md pats p cs d hnodup (FS.dir m false cc) hmem
      (by simp only [FS.name]; rw [hpd]; rfl)
    simpa only [FS.name, hpd] using h2
  · intro c hc hsig
    exact mem_fold_entries_of_mem md pats p cs d hnodup c hc hsig

/-- C5 witness: in a directory holding a plain file and an unreadable
subdirectory, the built tree keeps the file entry and marks only the
unreadable subdirectory. -/
theorem c5_witness :
    (c5_fs_children.map FS.name).Nodup ∧
      FS.dir "locked" false [FS.file "hidden"] ∈ c5_fs_children ∧
      ∃ es, build_tree none [] "/r" (FS.dir "r" true c5_fs_children) 0 = TreeObject.dict es ∧
        ("locked", TreeObject.str "Permission denied") ∈ es ∧
        ∀ c ∈ c5_fs_children,
          is_exclude_signal (build_tree none [] ("/r" ++ "/" ++ c.name) c 1) = false →
          (c.name, build_tree none [] ("/r" ++ "/" ++ c.name) c 1) ∈ es :=
  ⟨by decide, List.Mem.tail _ (List.Mem.head _),
    c5_unreadable_is_local none [] "/r" "r" c5_fs_children 0 "locked" [FS.file "hidden"]
      rfl rfl rfl (by decide) (List.Mem.tail _ (List.Mem.head _)) rfl⟩

/-! Claim C10 -/

/-- C10: a directory that is not itself excluded but all of whose children
come back as the exclusion sentinel builds to an empty mapping, and because
the empty dict differs from the sentinel, the parent keeps it as an empty
directory entry instead of dropping it. -/
theorem c10_all_children_excluded_keeps_empty_dir (md : Option Nat)
    (pats : List (String → Bool)) (p n : String) (cs : List FS) (d : Nat)
    (m : String) (dcs : List FS)
    (htr : depth_exceeded md d = false)
    (htr1 : depth_exceeded md (d + 1) = false)
    (hex : should_exclude pats p = false)
    (hexm : should_exclude pats (p ++ "/" ++ m) = false)
    (hnodup : (cs.map FS.name).Nodup)
    (hmem : FS.dir m true dcs ∈ cs)
    (hkids : ∀ c ∈ dcs,
      build_tree md pats (p ++ "/" ++ m ++ "/" ++ c.name) c (d + 2)
        = TreeObject.str EXCLUDE_SIGNAL) :
    build_tree md pats (p ++ "/" ++ m) (FS.dir m true dcs) (d + 1) = TreeObject.dict [] ∧
      ∃ es, build_tree md pats p (FS.dir n true cs) d = TreeObject.dict es ∧
        (m, TreeObject.dict []) ∈ es := by
  have h1 : build_tree md pats (p ++ "/" ++ m) (FS.dir m true dcs) (d + 1)
      = TreeObject.dict [] := by
    rw [build_tree_dir_entries md pats (p ++ "/" ++ m) m dcs (d + 1) htr1 hexm]
    have hempty : fold_entries (sortLe (fun a b => strLe a.1 b.1)
        (child_pairs md pats (p ++ "/" ++ m) dcs (d + 1))) = [] := by
      rw [fold_entries]
      apply foldl_entries_const
      intro kv hkv
      rcases of_mem_child_pairs md pats (p ++ "/" ++ m) dcs (d + 1) kv
        ((mem_sortLe _ kv _).mp hkv) with ⟨c, hc, heq⟩
      have hv : kv.2 = build_tree md pats (p ++ "/" ++ m ++ "/" ++ c.name) c (d + 2) := by
        rw [heq]
      rw [hv, hkids c hc]
      rfl
    rw [hempty]
  refine ⟨h1,
    fold_entries (sortLe (fun a b => strLe a.1 b.1) (child_pairs md pats p cs d)),
    build_tree_dir_entries md pats p n cs d htr hex, ?_⟩
  have h2 := mem_fold_entries_of_mem md pats p cs d hnodup (FS.dir m true dcs) hmem
    (by simp only [FS.name]; rw [h1]; rfl)
  simpa only [FS.name, h1] using h2

/-- C10 witness: the subdirectory whose only child matches the exclusion
pattern still shows up in its parent as an empty directory entry. -/
theorem c10_witness :
    (c10_fs_children.map FS.name).Nodup ∧
      FS.dir "sub" true [FS.file "drop.md"] ∈ c10_fs_children ∧
      build_tree none c10_pats ("/r" ++ "/" ++ "sub") (FS.dir "sub" true [FS.file "drop.md"]) 1
        = TreeObject.dict [] ∧
      ∃ es, build_tree none c10_pats "/r" (FS.dir "r" true c10_fs_children) 0
          = TreeObject.dict es ∧
        ("sub", TreeObject.dict []) ∈ es := by
  have h := c10_all_children_excluded_keeps_empty_dir none c10_pats "/r" "r"
    c10_fs_children 0 "sub" [FS.file "drop.md"] rfl rfl rfl rfl (by decide)
    (List.Mem.head _)
    (by
      intro c hc
      rw [List.mem_singleton] at hc
      subst hc
      rfl)
  exact ⟨by decide, List.Mem.head _, h.1, h.2⟩
